import Mathlib

/-!
Verification of the `csv-ingest` ingestion pipeline.

Shallow embedding of the Rust crate `csv-ingest` (streaming CSV ingestion with
an optional memory-mapped fast local path) and proofs about the claims of its
specification.

Modelling conventions:
* Bytes are `Nat` (only equality with the delimiter / line-break byte matters).
* Rust `String` / `&str` values are modelled as their UTF-8 byte sequences
  (`List Nat`); Rust compares strings by byte equality, so `List` equality is
  the faithful translation.
* Fallible Rust code (`Result`) becomes `Except`.
* The per-worker loops of the fast path are sequentialised: each chunk scan is
  a pure function of its byte slice, and the cross-thread `fetch_add` /
  `fetch_xor` aggregation is a fold over the list of per-chunk results, which
  is the observable behaviour of the Relaxed atomic combination after the
  join barrier.
* `num_cpus::get().max(1)` is an environment value; it appears as an explicit
  `cores` parameter (with `1 ≤ cores` where needed).
-/

set_option autoImplicit false

namespace CsvIngest

/-! ## Generic byte-list utilities -/

/-- First index of byte `b` in `l`: model of `memchr(b, l)` and of
`Iterator::position`. -/
def memFind (b : Nat) (l : List Nat) : Option Nat :=
  l.findIdx? (· == b)

/-- Split a byte list at every occurrence of `sep`, keeping empty segments; a
list with `n` separators yields `n + 1` segments.  This is the translation of
the header-field loop of `fast.rs` (push a field at each delimiter found by
`memchr_iter`, then unconditionally push the trailing field, since
`start <= header_slice.len()` always holds). -/
def splitByte (sep : Nat) : List Nat → List (List Nat)
  | [] => [[]]
  | b :: rest =>
    let s := splitByte sep rest
    if b = sep then [] :: s
    else (b :: s.headD []) :: s.tail

/-! ## The streaming parser (`src/lib.rs`) -/

/-- Model of `CsvIngestSummary { row_count, headers }`; header strings appear
as UTF-8 byte sequences. -/
structure Summary where
  rowCount : Nat
  headers : List (List Nat)
  deriving Repr, DecidableEq

/-- Model of the `CsvIngestError` enum of `src/lib.rs`: exactly the three
variants `MissingHeader(String)`, `Io(std::io::Error)` and
`Csv(csv_async::Error)` (the latter two carry an opaque detail, modelled as a
`String`). -/
inductive CsvIngestError where
  | missingHeader : List Nat → CsvIngestError
  | io : String → CsvIngestError
  | csv : String → CsvIngestError
  deriving Repr, DecidableEq

/-- Model of the required-header resolution of `process_csv_stream`
(`src/lib.rs` lines 61–69): each required name is resolved, in caller order,
to `(name, position in headers)`; the fold over `CsvResult` short-circuits at
the first name with no exact match, producing `MissingHeader(name)`. -/
def resolveRequired (headers : List (List Nat)) :
    List (List Nat) → Except CsvIngestError (List (List Nat × Nat))
  | [] => .ok []
  | r :: rs =>
    match headers.findIdx? (· == r) with
    | none => .error (.missingHeader r)
    | some i =>
      match resolveRequired headers rs with
      | .error e => .error e
      | .ok ps => .ok ((r, i) :: ps)

/-- Model of the per-row required-field check of `process_csv_stream`
(`src/lib.rs` lines 78–84): returns the name of the first required column
whose index has no field in the record (`record.get(idx).is_none()`, i.e.
`idx ≥ record.len()`). -/
def checkRow (pairs : List (List Nat × Nat)) (row : List (List Nat)) :
    Option (List Nat) :=
  match pairs with
  | [] => none
  | (name, idx) :: rest =>
    if row.length ≤ idx then some name else checkRow rest row

/-- Model of the `read_byte_record` loop of `process_csv_stream`
(`src/lib.rs` lines 75–85): count each record, then abort with
`MissingHeader(name)` at the first record missing a required field. -/
def scanRows (pairs : List (List Nat × Nat)) :
    List (List (List Nat)) → Nat → Except CsvIngestError Nat
  | [], count => .ok count
  | row :: rest, count =>
    let count' := count + 1
    match checkRow pairs row with
    | some name => .error (.missingHeader name)
    | none => scanRows pairs rest count'

/-- Model of `process_csv_stream` (`src/lib.rs` lines 46–91).  The `csv_async`
reader is external; its observable output on the inputs considered here is the
parsed header record plus the sequence of data byte-records, which this model
takes directly as `headers` and `rows` (each field a byte sequence). -/
def processCsvStream (headers : List (List Nat)) (rows : List (List (List Nat)))
    (required : List (List Nat)) : Except CsvIngestError Summary :=
  match resolveRequired headers required with
  | .error e => .error e
  | .ok pairs =>
    match scanRows pairs rows 0 with
    | .error e => .error e
    | .ok c => .ok ⟨c, headers⟩

/-! ## CRC32 (model of the `crc32fast` hasher used by `bin/bench.rs` and
`src/fast.rs`) -/

/-- One bit-step of the reflected CRC-32 (IEEE polynomial `0xEDB88320`). -/
def crc32Step (c : Nat) : Nat :=
  if c % 2 = 1 then Nat.xor (c / 2) 0xEDB88320 else c / 2

/-- Fold one input byte into the CRC state (`state ^= byte` on the low bits,
then eight polynomial steps). -/
def crc32Byte (c b : Nat) : Nat :=
  Nat.repeat crc32Step 8 (Nat.xor c (b % 256))

/-- `Hasher::update` over a byte sequence. -/
def crc32UpdateList (c : Nat) (bs : List Nat) : Nat :=
  bs.foldl crc32Byte c

/-- `Crc32::new()`: the pre-inverted initial state. -/
def crc32Init : Nat := 0xFFFFFFFF

/-- `Hasher::finalize()`. -/
def crc32Finalize (c : Nat) : Nat := Nat.xor c 0xFFFFFFFF

/-! ## The strict verification variant (`verify_and_count` in `bin/bench.rs`) -/

/-- Model of the errors produced by `verify_and_count` in `bin/bench.rs`.
The source produces `anyhow!` string errors; this inductive captures exactly
the data interpolated into each message:
`"Missing required header: '{name}'"`,
`"Row {row} width mismatch: got {got}, expected {expected}"`, and
`"Row {row} missing required field '{name}'"`. -/
inductive BenchError where
  | missingHeader : List Nat → BenchError
  | rowWidthMismatch : (row : Nat) → (got : Nat) → (expected : Nat) → BenchError
  | missingField : (row : Nat) → List Nat → BenchError
  deriving Repr, DecidableEq

/-- Required-header resolution of `verify_and_count` (same algorithm as the
streaming parser, `anyhow` error flavour). -/
def benchResolve (headers : List (List Nat)) :
    List (List Nat) → Except BenchError (List (List Nat × Nat))
  | [] => .ok []
  | r :: rs =>
    match headers.findIdx? (· == r) with
    | none => .error (.missingHeader r)
    | some i =>
      match benchResolve headers rs with
      | .error e => .error e
      | .ok ps => .ok ((r, i) :: ps)

/-- CRC accumulation over one record: every field in column order, with the
sentinel byte `0x1F` between fields (`bin/bench.rs`: `if fi > 0 { crc.update(&[0x1f]) }`). -/
def rowCrcUpdate (c : Nat) (fields : List (List Nat)) : Nat :=
  match fields with
  | [] => c
  | f :: rest =>
    rest.foldl (fun acc g => crc32UpdateList (crc32Byte acc 0x1f) g)
      (crc32UpdateList c f)

/-- The optional row limit check (`if row_count >= lim { break }`), performed
after a row has been fully processed. -/
def limitHit (limit : Option Nat) (processed : Nat) : Bool :=
  match limit with
  | none => false
  | some l => l ≤ processed

/-- The scan loop of `verify_and_count` (`bin/bench.rs`): count the row, abort
on a width mismatch (1-based row index, observed then expected width), abort
on a missing required field, accumulate the CRC, stop at the limit. -/
def verifyRows (pairs : List (List Nat × Nat)) (width : Nat) (limit : Option Nat) :
    List (List (List Nat)) → Nat → Nat → Except BenchError (Nat × Nat)
  | [], count, crc => .ok (count, crc)
  | row :: rest, count, crc =>
    let count' := count + 1
    if row.length ≠ width then .error (.rowWidthMismatch count' row.length width)
    else
      match checkRow pairs row with
      | some name => .error (.missingField count' name)
      | none =>
        let crc' := rowCrcUpdate crc row
        if limitHit limit count' then .ok (count', crc')
        else verifyRows pairs width limit rest count' crc'

/-- Model of `verify_and_count` (`bin/bench.rs`): strict mode of the streaming
scan.  The final CRC digest is computed and then discarded by the source
(`let _digest = crc.finalize();`), so only the summary is returned.  (With
`flexible(false)` the `csv_async` reader itself also rejects a
width-mismatched record before the explicit check; both mechanisms abort at
the same record, and the explicit check cited by the spec is the one
modelled.) -/
def verifyAndCount (headers : List (List Nat)) (rows : List (List (List Nat)))
    (required : List (List Nat)) (limit : Option Nat) :
    Except BenchError Summary :=
  match benchResolve headers required with
  | .error e => .error e
  | .ok pairs =>
    match verifyRows pairs headers.length limit rows 0 crc32Init with
    | .error e => .error e
    | .ok (c, _crc) => .ok ⟨c, headers⟩

/-! ## Metadata resolution (`build_csv_reader` in `src/io.rs`) -/

/-- Model of the `CsvMeta` hints (`src/io.rs`); the string fields are UTF-8
byte sequences.  The `charset` field selects transcoding, not decompression,
and is omitted from the decompression decision it does not enter. -/
structure CsvMeta where
  contentType : List Nat
  contentEncoding : List Nat
  nameHint : List Nat
  deriving Repr, DecidableEq

/-- `u8::to_ascii_lowercase`. -/
def asciiLowerByte (b : Nat) : Nat :=
  if 65 ≤ b ∧ b ≤ 90 then b + 32 else b

/-- `str::to_ascii_lowercase` over UTF-8 bytes (only ASCII letters change). -/
def asciiLower (l : List Nat) : List Nat := l.map asciiLowerByte

/-- ASCII whitespace bytes (the content-encoding tokens are ASCII, where
`str::trim`'s Unicode whitespace coincides with this set). -/
def isWsByte (b : Nat) : Bool :=
  b = 32 || b = 9 || b = 10 || b = 11 || b = 12 || b = 13

/-- `str::trim` over bytes. -/
def trimBytes (l : List Nat) : List Nat :=
  ((l.dropWhile isWsByte).reverse.dropWhile isWsByte).reverse

/-- `ce.split(',').any(|s| s.trim() == tok)`. -/
def ceHasToken (ce : List Nat) (tok : List Nat) : Bool :=
  (splitByte 44 ce).any (fun s => trimBytes s == tok)

/-- UTF-8 bytes of an ASCII string literal (helper for spelling the byte-level
constants of the source). -/
def bytesOf (s : String) : List Nat := s.data.map Char.toNat

/-- The decompression decision of `build_csv_reader` (a tagged choice among
none/gzip/zstd, per §4.1 of the spec). -/
inductive Decompression where
  | gzip | zstd | plain
  deriving Repr, DecidableEq

/-- Model of the decompression selection of `build_csv_reader` (`src/io.rs`
lines 42–61): `is_gzip` is the disjunction of a lowercased content-encoding
token `"gzip"`, a lowercased content-type of `application/gzip` or
`application/x-gzip`, and a raw name hint ending in `".gz"`; `is_zstd` is the
analogous disjunction for zstd; gzip is tested first. -/
def buildCsvReaderChoice (meta : CsvMeta) : Decompression :=
  let ce := asciiLower meta.contentEncoding
  let ct := asciiLower meta.contentType
  let isGzip := ceHasToken ce (bytesOf "gzip")
      || (ct == bytesOf "application/gzip" || ct == bytesOf "application/x-gzip")
      || (bytesOf ".gz").isSuffixOf meta.nameHint
  let isZstd := ceHasToken ce (bytesOf "zstd")
      || ct == bytesOf "application/zstd"
      || (bytesOf ".zst").isSuffixOf meta.nameHint
  if isGzip then .gzip else if isZstd then .zstd else .plain

/-! ## The transcoding stage (`src/codec.rs`) -/

/-- Abstract model of an `encoding_rs::Decoder`: `step st src last` returns
the new decoder state, the number of input bytes consumed (`bytes_read`) and
the emitted UTF-8 output (`bytes_written` bytes).  The concrete decoder is an
external library; every theorem below holds for an arbitrary model, in
particular for the substituting decoder `encoding_rs` implements. -/
structure DecoderModel (σ : Type) where
  step : σ → List Nat → Bool → σ × Nat × List Nat

/-- Model of `Transcoder::decode` (`src/codec.rs` lines 21–42).  The result
mirrors `Result<Option<BytesMut>, io::Error>` plus the mutated source buffer
and decoder state: `(state, remaining source, emitted chunk)`.  In
`m.step st src false`, the first projection is the new decoder state, then
`bytes_read`, then the emitted UTF-8 bytes (whose length is
`bytes_written`). -/
def transcoderDecode {σ : Type} (m : DecoderModel σ) (st : σ) (src : List Nat) :
    Except String (σ × List Nat × Option (List Nat)) :=
  if src.isEmpty then .ok (st, src, none)
  else
    let res := m.step st src false
    if res.2.1 = 0 ∧ res.2.2.length = 0 ∧ ¬src.isEmpty then .ok (res.1, src, none)
    else .ok (res.1, src.drop res.2.1, some res.2.2)

/-- Model of `Transcoder::decode_eof` (`src/codec.rs` lines 44–65): on a
non-empty buffer, decode with `last = true`, clear the buffer, and emit the
output only when non-empty. -/
def transcoderDecodeEof {σ : Type} (m : DecoderModel σ) (st : σ) (buf : List Nat) :
    Except String (σ × List Nat × Option (List Nat)) :=
  if buf.isEmpty then .ok (st, buf, none)
  else
    let res := m.step st buf true
    if 0 < res.2.2.length then .ok (res.1, [], some res.2.2)
    else .ok (res.1, [], none)

/-! ## The fast local path (`src/fast.rs`) -/

/-- UTF-8 validity of a byte sequence (model of `std::str::from_utf8` being
`Ok`): the standard well-formedness conditions, including the rejection of
overlong forms, surrogates and code points above `U+10FFFF`. -/
def validUtf8 : List Nat → Bool
  | [] => true
  | b :: rest =>
    if b ≤ 0x7F then validUtf8 rest
    else if 0xC2 ≤ b ∧ b ≤ 0xDF then
      match rest with
      | c :: r => (0x80 ≤ c && c ≤ 0xBF) && validUtf8 r
      | [] => false
    else if 0xE0 ≤ b ∧ b ≤ 0xEF then
      match rest with
      | c1 :: c2 :: r =>
        (if b = 0xE0 then 0xA0 ≤ c1 && c1 ≤ 0xBF
         else if b = 0xED then 0x80 ≤ c1 && c1 ≤ 0x9F
         else 0x80 ≤ c1 && c1 ≤ 0xBF)
        && (0x80 ≤ c2 && c2 ≤ 0xBF) && validUtf8 r
      | _ => false
    else if 0xF0 ≤ b ∧ b ≤ 0xF4 then
      match rest with
      | c1 :: c2 :: c3 :: r =>
        (if b = 0xF0 then 0x90 ≤ c1 && c1 ≤ 0xBF
         else if b = 0xF4 then 0x80 ≤ c1 && c1 ≤ 0x8F
         else 0x80 ≤ c1 && c1 ≤ 0xBF)
        && (0x80 ≤ c2 && c2 ≤ 0xBF) && (0x80 ≤ c3 && c3 ≤ 0xBF) && validUtf8 r
      | _ => false
    else false

/-- Errors of `fast_local_process` (`anyhow` in the source): a header field
that is not valid UTF-8 (the `?` on `from_utf8`), a missing required header
(`anyhow!("Missing required header: '{}'")`), or the (unreachable for
non-empty input) `anyhow!("fast path failed to parse header")`. -/
inductive FastError where
  | invalidUtf8 : FastError
  | missingHeader : List Nat → FastError
  | emptyHeader : FastError
  deriving Repr, DecidableEq

/-- Result of `fast_local_process`: the summary plus the optional combined
CRC. -/
structure FastOut where
  rowCount : Nat
  headers : List (List Nat)
  crc : Option Nat
  deriving Repr, DecidableEq

/-- Required-header resolution of `fast_local_process` (`src/fast.rs` lines
52–61): identical algorithm to the streaming path, returning the column
indices; short-circuits at the first missing name. -/
def resolveRequiredFast (headers : List (List Nat)) :
    List (List Nat) → Except FastError (List Nat)
  | [] => .ok []
  | r :: rs =>
    match headers.findIdx? (· == r) with
    | none => .error (.missingHeader r)
    | some i =>
      match resolveRequiredFast headers rs with
      | .error e => .error e
      | .ok idxs => .ok (i :: idxs)

/-- Insertion of one element into an ascending list (used to model
`sort_unstable`, which sorts the index vector ascending). -/
def insertAsc (x : Nat) : List Nat → List Nat
  | [] => [x]
  | y :: ys => if x ≤ y then x :: y :: ys else y :: insertAsc x ys

/-- Ascending sort (model of `required_indices.sort_unstable()`; the claims
below depend only on the elements, handled identically by any sort). -/
def sortAsc (l : List Nat) : List Nat := l.foldr insertAsc []

/-- The within-row column walk of a chunk worker (`src/fast.rs` lines
111–129), translated from the indexed `for (i, b) in row.iter().enumerate()`
loop to structural recursion: `fieldAcc` holds the bytes of the current
column in reverse (so `fieldAcc.reverse` is `row[col_start..i]`), and on the
early-exit `break` the remaining bytes are exactly `row[col_start..]` for the
trailing-field code.  Returns (trailing field bytes, col_idx, req_it, crc). -/
def rowWalkGo (delim : Nat) (req : List Nat) (verify : Bool) :
    List Nat → List Nat → Nat → Nat → Nat → (List Nat × Nat × Nat × Nat)
  | [], fieldAcc, colIdx, reqIt, crc => (fieldAcc.reverse, colIdx, reqIt, crc)
  | b :: rest, fieldAcc, colIdx, reqIt, crc =>
    if b = delim then
      let crc' := if req.contains colIdx ∧ verify then
          crc32UpdateList (if 0 < reqIt then crc32Byte crc 0x1f else crc)
            fieldAcc.reverse
        else crc
      let reqIt' := if req.contains colIdx ∧ verify then reqIt + 1 else reqIt
      let colIdx' := colIdx + 1
      match req.getLast? with
      | some lastReq =>
        if lastReq < colIdx' then (rest, colIdx', reqIt', crc')
        else rowWalkGo delim req verify rest [] colIdx' reqIt' crc'
      | none => rowWalkGo delim req verify rest [] colIdx' reqIt' crc'
    else rowWalkGo delim req verify rest (b :: fieldAcc) colIdx reqIt crc

/-- The per-row CRC contribution of a chunk worker (`src/fast.rs` lines
104–137): run the column walk, then fold the trailing field
(`row[col_start..]`) if its column is required. -/
def rowCrcContribution (delim : Nat) (req : List Nat) (verify : Bool)
    (row : List Nat) (crc : Nat) : Nat :=
  let (lastField, colIdx, reqIt, c) := rowWalkGo delim req verify row [] 0 0 crc
  if req.contains colIdx ∧ verify then
    crc32UpdateList (if 0 < reqIt then crc32Byte c 0x1f else c) lastField
  else c

/-- The chunk-worker loop (`src/fast.rs` lines 94–151), translated from
`for nl in memchr_iter(line_break, slice)` with a `cursor` into structural
recursion: `rowAcc` holds the bytes of the current line in reverse (so on a
line break the row `slice[cursor..nl]` is `rowAcc.reverse`); bytes after the
last line break are never a row.  Counts each terminated row, folds the
required-field CRC when `!req.is_empty() || verify`, and stops once
`processed >= lim`.  Returns (count, crc state). -/
def chunkScanGo (delim lb : Nat) (req : List Nat) (verify : Bool)
    (limit : Option Nat) :
    List Nat → List Nat → Nat → Nat → Nat → (Nat × Nat)
  | [], _rowAcc, count, _processed, crc => (count, crc)
  | b :: rest, rowAcc, count, processed, crc =>
    if b = lb then
      let row := rowAcc.reverse
      let count' := count + 1
      let crc' := if ¬req.isEmpty ∨ verify then
          rowCrcContribution delim req verify row crc
        else crc
      let processed' := processed + 1
      if limitHit limit processed' then (count', crc')
      else chunkScanGo delim lb req verify limit rest [] count' processed' crc'
    else chunkScanGo delim lb req verify limit rest (b :: rowAcc) count processed crc

/-- The snapped boundary candidate of one loop iteration (`src/fast.rs`
lines 75–78): `memchr_iter(line_break, &data[pos..]).next().map(|off| pos + off + 1).unwrap_or(len)`. -/
def nextBoundary (data : List Nat) (lb len pos : Nat) : Nat :=
  ((memFind lb (data.drop pos)).map (fun off => pos + off + 1)).getD len

/-- The chunk-boundary computation of `fast_local_process` (`src/fast.rs`
lines 68–81): the `while starts.len() < cores` loop, with the fuel
`cores - 1` bounding the number of pushes exactly as the length test does.
Each iteration recomputes `pos = body_start + starts.len() * approx` (the
source sets `pos = body_start + approx` before the loop, when the list has
length 1, and re-derives it the same way after each push), snaps it forward
to just past the next line break (or `len`), and pushes it.  Finally `len`
is pushed. -/
def buildStartsGo (data : List Nat) (lb len bodyStart approx : Nat) :
    Nat → List Nat → List Nat
  | 0, acc => acc ++ [len]
  | fuel + 1, acc =>
    let pos := bodyStart + acc.length * approx
    if len ≤ pos then acc ++ [len]
    else
      buildStartsGo data lb len bodyStart approx fuel
        (acc ++ [min (nextBoundary data lb len pos) len])

/-- The full list of chunk boundaries (`starts` in the source). -/
def buildStarts (data : List Nat) (lb len bodyStart approx cores : Nat) :
    List Nat :=
  buildStartsGo data lb len bodyStart approx (cores - 1) [bodyStart]

/-- `starts.windows(2)`: the consecutive boundary pairs. -/
def windowsOf (starts : List Nat) : List (Nat × Nat) :=
  starts.zip starts.tail

/-- The byte slice `&data[start..end]` of one chunk. -/
def sliceOf (data : List Nat) (p : Nat × Nat) : List Nat :=
  (data.drop p.1).take (p.2 - p.1)

/-- `header_end`: `memchr(line_break, data).unwrap_or(len)`. -/
def headerEndOf (lb : Nat) (data : List Nat) : Nat :=
  (memFind lb data).getD data.length

/-- The parsed header fields of the fast path (the field loop over
`&data[..header_end]`). -/
def headerFieldsOf (delim lb : Nat) (data : List Nat) : List (List Nat) :=
  splitByte delim (data.take (headerEndOf lb data))

/-- `body_start = (header_end + 1).min(len)`. -/
def bodyStartOf (lb : Nat) (data : List Nat) : Nat :=
  min (headerEndOf lb data + 1) data.length

/-- The chunk boundaries of one invocation
(`approx = len / cores`, then the snap-forward loop). -/
def startsOf (lb cores : Nat) (data : List Nat) : List Nat :=
  buildStarts data lb data.length (bodyStartOf lb data) (data.length / cores) cores

/-- The number of terminated rows one chunk scan processes out of `n`
line-break bytes under the optional per-chunk row limit (abbreviation for the
statements below; established by `chunkScanGo_count_none` and
`chunkScanGo_count_some`). -/
def limitCount (limit : Option Nat) (n : Nat) : Nat :=
  match limit with
  | none => n
  | some l => min n (max 1 l)

/-- Model of `fast_local_process` (`src/fast.rs` lines 13–177).  `data` is
the memory-mapped file contents; `cores` is `num_cpus::get().max(1)`.  The
parallel workers are independent pure scans of disjoint slices whose results
are combined after the join barrier by `fetch_add` (sum) and `fetch_xor`
(bitwise fold), modelled as a fold over the per-chunk results. -/
def fastLocalProcess (delim lb : Nat) (required : List (List Nat))
    (verify : Bool) (limit : Option Nat) (cores : Nat) (data : List Nat) :
    Except FastError FastOut :=
  let len := data.length
  if len = 0 then .ok ⟨0, [], none⟩
  else
    let headerFields := headerFieldsOf delim lb data
    if ¬headerFields.all validUtf8 then .error .invalidUtf8
    else
      match resolveRequiredFast headerFields required with
      | .error e => .error e
      | .ok idxs =>
        let req := sortAsc idxs
        let bodyStart := bodyStartOf lb data
        let starts := startsOf lb cores data
        let results := (windowsOf starts).map
          (fun p => chunkScanGo delim lb req verify limit (sliceOf data p) [] 0 0 crc32Init)
        let total := (results.map Prod.fst).sum
        let bodyRows := total +
          (if bodyStart < len ∧ data.getLast? ≠ some lb then 1 else 0)
        if headerFields.isEmpty then .error .emptyHeader
        else
          let crcOpt := if verify then
              some ((results.map (fun r => crc32Finalize r.2)).foldl Nat.xor 0)
            else none
          .ok ⟨bodyRows, headerFields, crcOpt⟩

/-! ## Streaming front-end for generated files -/

/-- Modelled from the behaviour of the external `csv_async` reader on inputs
of the generated well-formed shape (comma-delimited, no quote or
carriage-return bytes, every line newline-terminated and non-empty): the
reader tokenizes such a file into one record per line, splitting fields at
the delimiter, and the trailing line break produces no extra record.  The
first record is the header; the rest are the data rows. -/
def streamRecordsOf (delim lb : Nat) (data : List Nat) : List (List (List Nat)) :=
  ((splitByte lb data).dropLast).map (splitByte delim)

/-! ## Helper lemmas: `splitByte` -/

theorem splitByte_ne_nil (sep : Nat) (l : List Nat) : splitByte sep l ≠ [] := by
  cases l with
  | nil => simp [splitByte]
  | cons b rest =>
    simp only [splitByte]
    split <;> simp

theorem splitByte_length (sep : Nat) (l : List Nat) :
    (splitByte sep l).length = l.count sep + 1 := by
  induction l with
  | nil => simp [splitByte]
  | cons b rest ih =>
    simp only [splitByte, List.count_cons]
    by_cases h : b = sep
    · simp [h, ih]
    · have hne := splitByte_ne_nil sep rest
      cases hs : splitByte sep rest with
      | nil => exact absurd hs hne
      | cons x xs =>
        rw [hs] at ih
        simp only [List.length_cons] at ih
        simp [h, hs, ih, beq_iff_eq]

/-! ## Helper lemmas: `findIdx?` and `memFind` -/

theorem findIdx?_some_spec {α : Type} {p : α → Bool} :
    ∀ {l : List α} {i : Nat}, l.findIdx? p = some i →
      ∃ x, l[i]? = some x ∧ p x = true ∧
        ∀ j, j < i → ∀ y, l[j]? = some y → p y = false := by
  intro l
  induction l with
  | nil => intro i h; simp [List.findIdx?_nil] at h
  | cons a as ih =>
    intro i h
    rw [List.findIdx?_cons] at h
    by_cases hpa : p a
    · simp [hpa] at h
      subst h
      exact ⟨a, by simp, hpa, fun j hj => by omega⟩
    · simp [hpa, List.findIdx?_succ] at h
      obtain ⟨i', hi', rfl⟩ := h
      obtain ⟨x, hx, hpx, hfirst⟩ := ih hi'
      refine ⟨x, by simpa using hx, hpx, ?_⟩
      intro j hj y hy
      cases j with
      | zero =>
        simp at hy
        subst hy
        exact Bool.eq_false_iff.mpr hpa
      | succ j' =>
        simp at hy
        exact hfirst j' (by omega) y hy

theorem findIdx?_some_of_mem {α : Type} {p : α → Bool} {l : List α}
    (h : ∃ x ∈ l, p x = true) : ∃ i, l.findIdx? p = some i :=
  ⟨l.findIdx p, List.findIdx?_eq_some_of_exists h⟩

theorem findIdx?_some_lt {α : Type} {p : α → Bool} {l : List α} {i : Nat}
    (h : l.findIdx? p = some i) : i < l.length := by
  obtain ⟨x, hx, -, -⟩ := findIdx?_some_spec h
  rw [List.getElem?_eq_some_iff] at hx
  exact hx.1

theorem memFind_some_spec {b : Nat} {l : List Nat} {i : Nat}
    (h : memFind b l = some i) :
    l[i]? = some b ∧ ∀ j, j < i → l[j]? ≠ some b := by
  obtain ⟨x, hx, hpx, hfirst⟩ := findIdx?_some_spec h
  simp only [beq_iff_eq] at hpx
  subst hpx
  refine ⟨hx, fun j hj hcon => ?_⟩
  have := hfirst j hj x hcon
  simp at this

theorem memFind_none_spec {b : Nat} {l : List Nat}
    (h : memFind b l = none) : ∀ x ∈ l, x ≠ b := by
  rw [memFind, List.findIdx?_eq_none_iff] at h
  intro x hx
  simpa using h x hx

/-! ## Helper lemmas: required-header resolution -/

theorem findIdx?_none_of_not_mem {headers : List (List Nat)} {r : List Nat}
    (h : r ∉ headers) :
    headers.findIdx? (· == r) = none := by
  rw [List.findIdx?_eq_none_iff]
  intro x hx
  rw [beq_eq_false_iff_ne]
  rintro rfl
  exact h hx

theorem findIdx?_some_of_mem_self {headers : List (List Nat)} {r : List Nat}
    (h : r ∈ headers) :
    ∃ i, headers.findIdx? (· == r) = some i :=
  findIdx?_some_of_mem ⟨r, h, by simp⟩

/-- If some required name is absent, the streaming-path resolution fails with
`MissingHeader` on the first absent name in caller order. -/
theorem resolveRequired_err {headers : List (List Nat)} :
    ∀ {required : List (List Nat)} {m : List Nat},
      required.find? (fun r => decide (r ∉ headers)) = some m →
      resolveRequired headers required = .error (.missingHeader m) := by
  intro required
  induction required with
  | nil => intro m h; simp [List.find?] at h
  | cons r rs ih =>
    intro m h
    by_cases hc : r ∈ headers
    · have hd : decide (r ∉ headers) = false := by simp [hc]
      simp only [List.find?_cons, hd] at h
      have ⟨i, hi⟩ := findIdx?_some_of_mem_self hc
      simp only [resolveRequired, hi]
      rw [ih h]
    · have hd : decide (r ∉ headers) = true := by simp [hc]
      simp only [List.find?_cons, hd, Option.some.injEq] at h
      subst h
      simp only [resolveRequired, findIdx?_none_of_not_mem hc]

/-- If every required name is present, the streaming-path resolution succeeds
with pairs carrying the required names in order and in-range column
indices. -/
theorem resolveRequired_ok {headers : List (List Nat)} :
    ∀ {required : List (List Nat)}, (∀ r ∈ required, r ∈ headers) →
      ∃ ps, resolveRequired headers required = .ok ps ∧
        ps.map Prod.fst = required ∧ ∀ p ∈ ps, p.2 < headers.length := by
  intro required
  induction required with
  | nil => intro _; exact ⟨[], rfl, rfl, by simp⟩
  | cons r rs ih =>
    intro h
    have ⟨i, hi⟩ := findIdx?_some_of_mem_self (h r (by simp))
    obtain ⟨ps, hps, hmap, hlt⟩ := ih (fun x hx => h x (by simp [hx]))
    refine ⟨(r, i) :: ps, ?_, by simp [hmap], ?_⟩
    · simp only [resolveRequired, hi, hps]
    · intro p hp
      rcases List.mem_cons.mp hp with rfl | hp'
      · exact findIdx?_some_lt hi
      · exact hlt p hp'

/-- Fast-path twin of `resolveRequired_err`. -/
theorem resolveRequiredFast_err {headers : List (List Nat)} :
    ∀ {required : List (List Nat)} {m : List Nat},
      required.find? (fun r => decide (r ∉ headers)) = some m →
      resolveRequiredFast headers required = .error (.missingHeader m) := by
  intro required
  induction required with
  | nil => intro m h; simp [List.find?] at h
  | cons r rs ih =>
    intro m h
    by_cases hc : r ∈ headers
    · have hd : decide (r ∉ headers) = false := by simp [hc]
      simp only [List.find?_cons, hd] at h
      have ⟨i, hi⟩ := findIdx?_some_of_mem_self hc
      simp only [resolveRequiredFast, hi]
      rw [ih h]
    · have hd : decide (r ∉ headers) = true := by simp [hc]
      simp only [List.find?_cons, hd, Option.some.injEq] at h
      subst h
      simp only [resolveRequiredFast, findIdx?_none_of_not_mem hc]

/-- Fast-path twin of `resolveRequired_ok`. -/
theorem resolveRequiredFast_ok {headers : List (List Nat)} :
    ∀ {required : List (List Nat)}, (∀ r ∈ required, r ∈ headers) →
      ∃ idxs, resolveRequiredFast headers required = .ok idxs := by
  intro required
  induction required with
  | nil => intro _; exact ⟨[], rfl⟩
  | cons r rs ih =>
    intro h
    have ⟨i, hi⟩ := findIdx?_some_of_mem_self (h r (by simp))
    obtain ⟨idxs, hidxs⟩ := ih (fun x hx => h x (by simp [hx]))
    exact ⟨i :: idxs, by simp only [resolveRequiredFast, hi, hidxs]⟩

/-- Bench twin of `resolveRequired_ok`. -/
theorem benchResolve_ok {headers : List (List Nat)} :
    ∀ {required : List (List Nat)}, (∀ r ∈ required, r ∈ headers) →
      ∃ ps, benchResolve headers required = .ok ps ∧
        ps.map Prod.fst = required ∧ ∀ p ∈ ps, p.2 < headers.length := by
  intro required
  induction required with
  | nil => intro _; exact ⟨[], rfl, rfl, by simp⟩
  | cons r rs ih =>
    intro h
    have ⟨i, hi⟩ := findIdx?_some_of_mem_self (h r (by simp))
    obtain ⟨ps, hps, hmap, hlt⟩ := ih (fun x hx => h x (by simp [hx]))
    refine ⟨(r, i) :: ps, ?_, by simp [hmap], ?_⟩
    · simp only [benchResolve, hi, hps]
    · intro p hp
      rcases List.mem_cons.mp hp with rfl | hp'
      · exact findIdx?_some_lt hi
      · exact hlt p hp'

/-! ## Helper lemmas: row scanning -/

/-- A record whose length covers every required index passes the
required-field check. -/
theorem checkRow_none {row : List (List Nat)} :
    ∀ {pairs : List (List Nat × Nat)}, (∀ p ∈ pairs, p.2 < row.length) →
      checkRow pairs row = none := by
  intro pairs
  induction pairs with
  | nil => intro _; rfl
  | cons p ps ih =>
    intro h
    obtain ⟨name, idx⟩ := p
    have hlt : idx < row.length := h (name, idx) (by simp)
    simp only [checkRow]
    rw [if_neg (by omega)]
    exact ih fun q hq => h q (by simp [hq])

theorem scanRows_ok {pairs : List (List Nat × Nat)} :
    ∀ {rows : List (List (List Nat))}, (∀ r ∈ rows, checkRow pairs r = none) →
      ∀ c, scanRows pairs rows c = .ok (c + rows.length) := by
  intro rows
  induction rows with
  | nil => intro _ c; rfl
  | cons row rest ih =>
    intro h c
    simp only [scanRows, h row (by simp)]
    rw [ih (fun r hr => h r (by simp [hr])) (c + 1)]
    simp only [List.length_cons]
    congr 1
    omega

theorem scanRows_err {pairs : List (List Nat × Nat)} {bad : List (List Nat)}
    {rest : List (List (List Nat))} {name : List Nat}
    (hbad : checkRow pairs bad = some name) :
    ∀ {pre : List (List (List Nat))}, (∀ r ∈ pre, checkRow pairs r = none) →
      ∀ c, scanRows pairs (pre ++ bad :: rest) c = .error (.missingHeader name) := by
  intro pre
  induction pre with
  | nil => intro _ c; simp only [List.nil_append, scanRows, hbad]
  | cons row pre' ih =>
    intro h c
    simp only [List.cons_append, scanRows, h row (by simp)]
    exact ih (fun r hr => h r (by simp [hr])) (c + 1)

/-- The strict scan of `verify_and_count` aborts at the first row whose width
differs from the header width, reporting the 1-based row index, the observed
width and the expected width. -/
theorem verifyRows_width_err {pairs : List (List Nat × Nat)} {width : Nat}
    {limit : Option Nat} {bad : List (List Nat)} {rest : List (List (List Nat))}
    (hpairs : ∀ p ∈ pairs, p.2 < width) (hbad : bad.length ≠ width) :
    ∀ {pre : List (List (List Nat))}, (∀ r ∈ pre, r.length = width) →
      ∀ c crc, (∀ l, limit = some l → c + pre.length + 1 ≤ l) →
        verifyRows pairs width limit (pre ++ bad :: rest) c crc =
          .error (.rowWidthMismatch (c + pre.length + 1) bad.length width) := by
  intro pre
  induction pre with
  | nil =>
    intro _ c crc _
    simp only [List.nil_append, verifyRows, if_pos hbad, List.length_nil]
  | cons row pre' ih =>
    intro h c crc hlim
    have hw : row.length = width := h row (by simp)
    have hchk : checkRow pairs row = none :=
      checkRow_none (fun p hp => by rw [hw]; exact hpairs p hp)
    have hstop : limitHit limit (c + 1) = false := by
      cases limit with
      | none => rfl
      | some l =>
        have hl := hlim l rfl
        simp only [List.length_cons] at hl
        simp only [limitHit, decide_eq_false_iff_not]
        omega
    have harith : c + (row :: pre').length + 1 = c + 1 + pre'.length + 1 := by
      simp only [List.length_cons]
      omega
    rw [harith]
    have hrec := ih (fun r hr => h r (by simp [hr])) (c + 1) (rowCrcUpdate crc row)
      (fun l hl => by have := hlim l hl; simp only [List.length_cons] at this; omega)
    simp only [List.cons_append, verifyRows,
      if_neg (show ¬row.length ≠ width from by omega), hchk, hstop,
      if_neg Bool.false_ne_true]
    exact hrec

/-- Counting behaviour of one chunk worker without a row limit: the first
component of the scan is the exact number of line-break bytes of the slice
(one count per terminated row). -/
theorem chunkScanGo_count_none (delim lb : Nat) (req : List Nat) (verify : Bool) :
    ∀ (slice rowAcc : List Nat) (count processed crc : Nat),
      (chunkScanGo delim lb req verify none slice rowAcc count processed crc).1 =
        count + slice.count lb := by
  intro slice
  induction slice with
  | nil =>
    intro rowAcc count processed crc
    simp [chunkScanGo]
  | cons b rest ih =>
    intro rowAcc count processed crc
    by_cases hb : b = lb
    · subst hb
      rw [List.count_cons_self]
      simp only [chunkScanGo, eq_self_iff_true, if_true, limitHit,
        Bool.false_eq_true, if_false]
      rw [ih]
      omega
    · have hcc : (b :: rest).count lb = rest.count lb := by
        rw [List.count_cons]
        simp [beq_iff_eq, hb]
      simp only [chunkScanGo, if_neg hb, hcc]
      exact ih (b :: rowAcc) count processed crc

/-- Counting behaviour of one chunk worker with a row limit: the limit is
only tested after a row has been processed, so from a processed-counter of
`processed` the scan counts `min (slice.count lb) (max 1 (l - processed))`
further rows — in particular a limit of `0` still lets one row through. -/
theorem chunkScanGo_count_some (delim lb : Nat) (req : List Nat) (verify : Bool)
    (l : Nat) :
    ∀ (slice rowAcc : List Nat) (count processed crc : Nat),
      (chunkScanGo delim lb req verify (some l) slice rowAcc count processed crc).1 =
        count + min (slice.count lb) (max 1 (l - processed)) := by
  intro slice
  induction slice with
  | nil =>
    intro rowAcc count processed crc
    simp [chunkScanGo]
  | cons b rest ih =>
    intro rowAcc count processed crc
    by_cases hb : b = lb
    · subst hb
      rw [List.count_cons_self]
      by_cases hhit : l ≤ processed + 1
      · have hl : limitHit (some l) (processed + 1) = true := by
          simp [limitHit, hhit]
        simp only [chunkScanGo, eq_self_iff_true, if_true, hl]
        omega
      · have hl : limitHit (some l) (processed + 1) = false := by
          simp only [limitHit, decide_eq_false_iff_not]
          omega
        simp only [chunkScanGo, eq_self_iff_true, if_true, hl,
          Bool.false_eq_true, if_false]
        rw [ih]
        omega
    · have hcc : (b :: rest).count lb = rest.count lb := by
        rw [List.count_cons]
        simp [beq_iff_eq, hb]
      simp only [chunkScanGo, if_neg hb, hcc]
      exact ih (b :: rowAcc) count processed crc

/-! ## Helper lemmas: chunk boundaries -/

theorem head?_append_of_ne_nil {l₁ l₂ : List Nat} (h : l₁ ≠ []) :
    (l₁ ++ l₂).head? = l₁.head? := by
  cases l₁ with
  | nil => exact absurd rfl h
  | cons a as => rfl

/-- Appending the end-of-file boundary preserves all boundary invariants. -/
theorem concatLen_spec {acc : List Nat} {len : Nat} (hne : acc ≠ [])
    (hch : List.Chain' (· ≤ ·) acc) (hbd : ∀ x ∈ acc, x ≤ len) :
    (acc ++ [len]).head? = acc.head? ∧
    (acc ++ [len]).getLast? = some len ∧
    List.Chain' (· ≤ ·) (acc ++ [len]) ∧
    ∀ x ∈ acc ++ [len], x ≤ len ∧ (x ∈ acc ∨ x = len) := by
  refine ⟨head?_append_of_ne_nil hne, List.getLast?_concat _, ?_, ?_⟩
  · refine List.Chain'.append hch (List.chain'_singleton _) ?_
    intro x hx y hy
    simp only [List.head?_cons, Option.mem_def, Option.some.injEq] at hy
    subst hy
    exact hbd x (List.mem_of_mem_getLast? hx)
  · intro x hx
    rcases List.mem_append.mp hx with h | h
    · exact ⟨hbd x h, .inl h⟩
    · simp only [List.mem_singleton] at h
      subst h
      exact ⟨le_refl _, .inr rfl⟩

/-- Invariant of the boundary loop: starting from a non-empty, ascending,
bounded prefix of boundaries such that no line break lies between the current
`pos` and the last boundary, the loop produces an ascending list that keeps
the first boundary, ends at end-of-file, and whose every element is either an
initial boundary, the end-of-file, or a position immediately after a line
break. -/
theorem buildStartsGo_spec (data : List Nat) (lb bodyStart approx : Nat) :
    ∀ (fuel : Nat) (acc : List Nat), acc ≠ [] →
      List.Chain' (· ≤ ·) acc →
      (∀ x ∈ acc, x ≤ data.length) →
      (∀ j, bodyStart + acc.length * approx ≤ j → j + 1 < acc.getLastD 0 →
        data[j]? ≠ some lb) →
      (buildStartsGo data lb data.length bodyStart approx fuel acc).head? = acc.head? ∧
      (buildStartsGo data lb data.length bodyStart approx fuel acc).getLast? =
        some data.length ∧
      List.Chain' (· ≤ ·) (buildStartsGo data lb data.length bodyStart approx fuel acc) ∧
      ∀ x ∈ buildStartsGo data lb data.length bodyStart approx fuel acc,
        x ≤ data.length ∧
          (x ∈ acc ∨ x = data.length ∨ (0 < x ∧ data[x - 1]? = some lb)) := by
  intro fuel
  induction fuel with
  | zero =>
    intro acc hne hch hbd _
    obtain ⟨h1, h2, h3, h4⟩ := concatLen_spec hne hch hbd
    refine ⟨h1, h2, h3, fun x hx => ?_⟩
    obtain ⟨hle, hd⟩ := h4 x hx
    exact ⟨hle, hd.imp id .inl⟩
  | succ fuel ih =>
    intro acc hne hch hbd hgap
    by_cases hpos : data.length ≤ bodyStart + acc.length * approx
    · have hrw : buildStartsGo data lb data.length bodyStart approx (fuel + 1) acc =
          acc ++ [data.length] := by
        simp only [buildStartsGo, if_pos hpos]
      rw [hrw]
      obtain ⟨h1, h2, h3, h4⟩ := concatLen_spec hne hch hbd
      refine ⟨h1, h2, h3, fun x hx => ?_⟩
      obtain ⟨hle, hd⟩ := h4 x hx
      exact ⟨hle, hd.imp id .inl⟩
    · have hplt : bodyStart + acc.length * approx < data.length := by omega
      have hposmono : bodyStart + acc.length * approx ≤
          bodyStart + (acc.length + 1) * approx := by
        have := Nat.mul_le_mul_right approx (Nat.le_succ acc.length)
        simp only [Nat.succ_eq_add_one] at this
        omega
      cases hfind : memFind lb (data.drop (bodyStart + acc.length * approx)) with
      | some off =>
        obtain ⟨hoff, hfirst⟩ := memFind_some_spec hfind
        rw [List.getElem?_drop] at hoff
        have hofflt : bodyStart + acc.length * approx + off < data.length :=
          (List.getElem?_eq_some_iff.mp hoff).1
        have hrw : buildStartsGo data lb data.length bodyStart approx (fuel + 1) acc =
            buildStartsGo data lb data.length bodyStart approx fuel
              (acc ++ [bodyStart + acc.length * approx + off + 1]) := by
          simp only [buildStartsGo, if_neg hpos, nextBoundary, hfind,
            Option.map_some', Option.getD_some]
          rw [Nat.min_eq_left (by omega)]
        rw [hrw]
        have hlast : ∀ x ∈ acc.getLast?, x ≤ bodyStart + acc.length * approx + off + 1 := by
          intro x hx
          by_contra hcon
          push_neg at hcon
          have hxlast : acc.getLastD 0 = x := by
            rw [List.getLastD_eq_getLast?, Option.mem_def.mp hx]
            rfl
          exact hgap (bodyStart + acc.length * approx + off) (by omega)
            (by rw [hxlast]; omega) hoff
        have hgap' : ∀ j,
            bodyStart + (acc ++ [bodyStart + acc.length * approx + off + 1]).length * approx ≤ j →
            j + 1 < (acc ++ [bodyStart + acc.length * approx + off + 1]).getLastD 0 →
            data[j]? ≠ some lb := by
          intro j hj hlt hcon
          rw [List.getLastD_concat] at hlt
          have hjpos : bodyStart + acc.length * approx ≤ j := by
            have hlen : (acc ++ [bodyStart + acc.length * approx + off + 1]).length =
                acc.length + 1 := by simp
            rw [hlen] at hj
            omega
          have hjlt : j - (bodyStart + acc.length * approx) < off := by omega
          have := hfirst (j - (bodyStart + acc.length * approx)) hjlt
          rw [List.getElem?_drop, Nat.add_sub_cancel' hjpos] at this
          exact this hcon
        obtain ⟨ihead, ilast, ichain, ielem⟩ :=
          ih (acc ++ [bodyStart + acc.length * approx + off + 1]) (by simp)
            (List.Chain'.append hch (List.chain'_singleton _) (fun x hx y hy => by
              simp only [List.head?_cons, Option.mem_def, Option.some.injEq] at hy
              subst hy
              exact hlast x hx))
            (fun x hx => by
              rcases List.mem_append.mp hx with h | h
              · exact hbd x h
              · simp only [List.mem_singleton] at h
                subst h
                omega)
            hgap'
        refine ⟨by rw [ihead, head?_append_of_ne_nil hne], ilast, ichain, ?_⟩
        intro x hx
        obtain ⟨hxle, hxd⟩ := ielem x hx
        refine ⟨hxle, ?_⟩
        rcases hxd with h | h | h
        · rcases List.mem_append.mp h with h' | h'
          · exact .inl h'
          · simp only [List.mem_singleton] at h'
            subst h'
            exact .inr (.inr ⟨by omega, by simpa using hoff⟩)
        · exact .inr (.inl h)
        · exact .inr (.inr h)
      | none =>
        have hmem := memFind_none_spec hfind
        have hrw : buildStartsGo data lb data.length bodyStart approx (fuel + 1) acc =
            buildStartsGo data lb data.length bodyStart approx fuel
              (acc ++ [data.length]) := by
          simp only [buildStartsGo, if_neg hpos, nextBoundary, hfind,
            Option.map_none', Option.getD_none, Nat.min_self]
        rw [hrw]
        have hgap' : ∀ j, bodyStart + (acc ++ [data.length]).length * approx ≤ j →
            j + 1 < (acc ++ [data.length]).getLastD 0 → data[j]? ≠ some lb := by
          intro j hj hlt hcon
          rw [List.getLastD_concat] at hlt
          have hjpos : bodyStart + acc.length * approx ≤ j := by
            have hlen : (acc ++ [data.length]).length = acc.length + 1 := by simp
            rw [hlen] at hj
            omega
          have hdropped : (data.drop (bodyStart + acc.length * approx))[j - (bodyStart + acc.length * approx)]? = some lb := by
            rw [List.getElem?_drop, Nat.add_sub_cancel' hjpos]
            exact hcon
          exact hmem lb (List.getElem?_mem hdropped) rfl
        obtain ⟨ihead, ilast, ichain, ielem⟩ := ih (acc ++ [data.length]) (by simp)
          (List.Chain'.append hch (List.chain'_singleton _) (fun x hx y hy => by
            simp only [List.head?_cons, Option.mem_def, Option.some.injEq] at hy
            subst hy
            exact hbd x (List.mem_of_mem_getLast? hx)))
          (fun x hx => by
            rcases List.mem_append.mp hx with h | h
            · exact hbd x h
            · simp only [List.mem_singleton] at h
              subst h
              exact le_refl _)
          hgap'
        refine ⟨by rw [ihead, head?_append_of_ne_nil hne], ilast, ichain, ?_⟩
        intro x hx
        obtain ⟨hxle, hxd⟩ := ielem x hx
        refine ⟨hxle, ?_⟩
        rcases hxd with h | h | h
        · rcases List.mem_append.mp h with h' | h'
          · exact .inl h'
          · simp only [List.mem_singleton] at h'
            subst h'
            exact .inr (.inl rfl)
        · exact .inr (.inl h)
        · exact .inr (.inr h)

theorem chain_le_getLastD : ∀ {ss : List Nat} {c : Nat},
    List.Chain' (· ≤ ·) (c :: ss) → c ≤ ss.getLastD c := by
  intro ss
  induction ss with
  | nil => intro c _; exact le_refl c
  | cons d ss' ih =>
    intro c hch
    rw [List.chain'_cons] at hch
    rw [List.getLastD_cons]
    exact le_trans hch.1 (ih hch.2)

/-- The chunk slices of an ascending boundary list concatenate to the slice
between the first and last boundary: the chunks are contiguous,
non-overlapping and jointly cover that byte range. -/
theorem windows_flatten (data : List Nat) : ∀ (ss : List Nat) (b : Nat),
    List.Chain' (· ≤ ·) (b :: ss) →
    ((windowsOf (b :: ss)).map (sliceOf data)).flatten =
      (data.drop b).take (ss.getLastD b - b) := by
  intro ss
  induction ss with
  | nil =>
    intro b _
    simp [windowsOf, sliceOf]
  | cons c ss' ih =>
    intro b hch
    rw [List.chain'_cons] at hch
    have hbc : b ≤ c := hch.1
    have hce : c ≤ ss'.getLastD c := chain_le_getLastD hch.2
    have hzip : windowsOf (b :: c :: ss') = (b, c) :: windowsOf (c :: ss') := by
      simp [windowsOf]
    rw [hzip, List.map_cons, List.flatten_cons, ih c hch.2, List.getLastD_cons]
    have harith : ss'.getLastD c - b = (c - b) + (ss'.getLastD c - c) := by omega
    rw [harith, List.take_add, List.drop_drop]
    have h2 : b + (c - b) = c := by omega
    rw [h2]
    rfl

/-- Sum form of `windows_flatten` for line-break counting. -/
theorem windows_count_sum (data : List Nat) (lb : Nat) {ss : List Nat} {b : Nat}
    (hch : List.Chain' (· ≤ ·) (b :: ss)) :
    (((windowsOf (b :: ss)).map (sliceOf data)).map (List.count lb)).sum =
      ((data.drop b).take (ss.getLastD b - b)).count lb := by
  rw [← List.count_flatten, windows_flatten data ss b hch]

theorem count_take_eq_zero {l : List Nat} {a : Nat} :
    ∀ {n : Nat}, (∀ j, j < n → l[j]? ≠ some a) → (l.take n).count a = 0 := by
  intro n
  induction n generalizing l with
  | zero => intro _; simp
  | succ m ih =>
    intro h
    cases l with
    | nil => simp
    | cons x xs =>
      have hx : x ≠ a := by
        have := h 0 (by omega)
        simpa using this
      rw [List.take_succ_cons, List.count_cons]
      have : (xs.take m).count a = 0 := by
        refine ih (fun j hj hcon => ?_)
        exact h (j + 1) (by omega) (by simpa using hcon)
      simp [this, beq_iff_eq, hx, Ne.symm hx]

theorem headerFieldsOf_ne_nil (delim lb : Nat) (data : List Nat) :
    headerFieldsOf delim lb data ≠ [] :=
  splitByte_ne_nil delim _

/-- The boundary list of one fast-path invocation: it starts at `body_start`,
ends at end-of-file, is ascending, stays within the file, and every boundary
is `body_start`, end-of-file, or a position immediately after a line-break
byte. -/
theorem startsOf_spec (lb cores : Nat) (data : List Nat) :
    (startsOf lb cores data).head? = some (bodyStartOf lb data) ∧
    (startsOf lb cores data).getLast? = some data.length ∧
    List.Chain' (· ≤ ·) (startsOf lb cores data) ∧
    ∀ x ∈ startsOf lb cores data,
      x ≤ data.length ∧
        (x = bodyStartOf lb data ∨ x = data.length ∨
          (0 < x ∧ data[x - 1]? = some lb)) := by
  have hbs : bodyStartOf lb data ≤ data.length := by
    unfold bodyStartOf
    omega
  obtain ⟨h1, h2, h3, h4⟩ := buildStartsGo_spec data lb (bodyStartOf lb data)
    (data.length / cores) (cores - 1) [bodyStartOf lb data]
    (by simp)
    (List.chain'_singleton _)
    (by
      intro x hx
      simp only [List.mem_singleton] at hx
      subst hx
      exact hbs)
    (by
      intro j hj hlt
      exfalso
      simp only [List.getLastD_cons, List.getLastD_nil] at hlt
      simp only [List.length_cons, List.length_nil] at hj
      omega)
  refine ⟨by simpa using h1, h2, h3, fun x hx => ?_⟩
  obtain ⟨hle, hd⟩ := h4 x hx
  refine ⟨hle, ?_⟩
  rcases hd with h | h | h
  · simp only [List.mem_singleton] at h
    exact .inl h
  · exact .inr (.inl h)
  · exact .inr (.inr h)

/-- Successful run of the fast path: with a non-empty file, a UTF-8-valid
header row and every required header present, the call returns a summary
whose headers are the parsed header fields and whose row count is the sum
over the chunks of the limit-truncated number of terminated rows, plus one
when a non-empty body does not end in a line break. -/
theorem fastLocalProcess_run (delim lb : Nat) (required : List (List Nat))
    (verify : Bool) (limit : Option Nat) (cores : Nat) (data : List Nat)
    (hdata : data ≠ [])
    (hvalid : (headerFieldsOf delim lb data).all validUtf8 = true)
    (hreq : ∀ r ∈ required, r ∈ headerFieldsOf delim lb data) :
    ∃ crcv, fastLocalProcess delim lb required verify limit cores data =
      .ok ⟨((windowsOf (startsOf lb cores data)).map
              (fun p => limitCount limit ((sliceOf data p).count lb))).sum
            + (if bodyStartOf lb data < data.length ∧ data.getLast? ≠ some lb
                then 1 else 0),
            headerFieldsOf delim lb data, crcv⟩ := by
  obtain ⟨idxs, hidxs⟩ := resolveRequiredFast_ok hreq
  have hlen : ¬data.length = 0 := by
    simpa using hdata
  have hemp : (headerFieldsOf delim lb data).isEmpty = false := by
    rcases he : headerFieldsOf delim lb data with _ | ⟨f, fs⟩
    · exact absurd he (headerFieldsOf_ne_nil delim lb data)
    · rfl
  have hrow : (List.map Prod.fst ((windowsOf (startsOf lb cores data)).map
        (fun p => chunkScanGo delim lb (sortAsc idxs) verify limit
          (sliceOf data p) [] 0 0 crc32Init))).sum
      = (List.map (fun p => limitCount limit ((sliceOf data p).count lb))
          (windowsOf (startsOf lb cores data))).sum := by
    rw [List.map_map]
    refine congrArg List.sum (List.map_congr_left ?_)
    intro p _
    cases limit with
    | none =>
      simp only [Function.comp_apply, chunkScanGo_count_none, limitCount]
      omega
    | some l =>
      simp only [Function.comp_apply, chunkScanGo_count_some, limitCount]
      omega
  simp only [fastLocalProcess, if_neg hlen, if_neg (not_not_intro hvalid), hidxs,
    hemp, Bool.false_eq_true, if_false, hrow]
  exact ⟨_, rfl⟩

/-- The per-chunk line-break counts sum to the line-break count of the whole
post-header body: nothing is counted twice and nothing is missed. -/
theorem chunk_count_sum (lb cores : Nat) (data : List Nat) :
    ((windowsOf (startsOf lb cores data)).map
        (fun p => (sliceOf data p).count lb)).sum
      = (data.drop (bodyStartOf lb data)).count lb := by
  obtain ⟨h1, h2, h3, -⟩ := startsOf_spec lb cores data
  rcases hs : startsOf lb cores data with _ | ⟨b, ss⟩
  · rw [hs] at h1
    exact absurd h1 (by simp)
  · rw [hs] at h1 h2 h3
    simp only [List.head?_cons, Option.some.injEq] at h1
    have hmm : (List.map (fun p => (sliceOf data p).count lb) (windowsOf (b :: ss)))
        = ((windowsOf (b :: ss)).map (sliceOf data)).map (List.count lb) := by
      rw [List.map_map]
      rfl
    rw [hmm, windows_count_sum data lb h3]
    have hlast : ss.getLastD b = data.length := by
      have h := (List.getLastD_cons 0 b ss).symm
      rw [show (b :: ss).getLastD 0 = data.length from by
        rw [List.getLastD_eq_getLast?, h2]; rfl] at h
      exact h
    rw [hlast, ← h1]
    refine congrArg (List.count lb) ?_
    refine List.take_of_length_le ?_
    rw [List.length_drop]

/-- The first segment of the byte split is the prefix before the first
separator. -/
theorem splitByte_headD (sep : Nat) : ∀ (l : List Nat),
    (splitByte sep l).headD [] = l.take ((memFind sep l).getD l.length) := by
  intro l
  induction l with
  | nil => simp [splitByte]
  | cons b rest ih =>
    by_cases hb : b = sep
    · subst hb
      have hfind : memFind b (b :: rest) = some 0 := by
        rw [memFind, List.findIdx?_cons]
        simp
      simp [splitByte, hfind]
    · have hstep : memFind sep (b :: rest) =
          Option.map (fun i => i + 1) (memFind sep rest) := by
        rw [memFind, List.findIdx?_cons]
        rw [if_neg (by simpa using hb)]
        rw [List.findIdx?_succ]
        rfl
      have hsplit : splitByte sep (b :: rest) =
          (b :: (splitByte sep rest).headD []) :: (splitByte sep rest).tail := by
        simp only [splitByte, if_neg hb]
      rw [hsplit, List.headD_cons, hstep]
      cases hf : memFind sep rest with
      | none =>
        rw [hf] at ih
        simp only [Option.getD_none] at ih
        rw [ih, List.take_length, Option.map_none', Option.getD_none,
          List.length_cons, List.take_succ_cons, List.take_length]
      | some i =>
        rw [hf] at ih
        simp only [Option.getD_some] at ih
        rw [ih, Option.map_some', Option.getD_some, List.take_succ_cons]

theorem memFind_some_of_mem {b : Nat} {l : List Nat} (h : b ∈ l) :
    ∃ i, memFind b l = some i :=
  findIdx?_some_of_mem ⟨b, h, by simp⟩

/-- When the file contains a line break, the first one ends the header line:
the body loses exactly one line break relative to the whole file. -/
theorem count_body (lb : Nat) (data : List Nat) (h : lb ∈ data) :
    headerEndOf lb data < data.length ∧
      data.count lb = (data.drop (headerEndOf lb data + 1)).count lb + 1 := by
  obtain ⟨i, hi⟩ := memFind_some_of_mem h
  obtain ⟨hget, hfirst⟩ := memFind_some_spec hi
  have hE : headerEndOf lb data = i := by
    rw [headerEndOf, hi]
    rfl
  obtain ⟨hlt, hgeti⟩ := List.getElem?_eq_some_iff.mp hget
  refine ⟨by omega, ?_⟩
  have hsplit : data = data.take i ++ data.drop i := (List.take_append_drop i data).symm
  have hdrop : data.drop i = lb :: data.drop (i + 1) := by
    rw [List.drop_eq_getElem_cons hlt, hgeti]
  have htake0 : (data.take i).count lb = 0 := by
    refine count_take_eq_zero ?_
    intro j hj
    exact hfirst j hj
  calc data.count lb = (data.take i ++ data.drop i).count lb := by rw [← hsplit]
    _ = (data.take i).count lb + (data.drop i).count lb := List.count_append lb _ _
    _ = (data.drop i).count lb := by rw [htake0]; omega
    _ = (data.drop (i + 1)).count lb + 1 := by rw [hdrop, List.count_cons_self]
    _ = (data.drop (headerEndOf lb data + 1)).count lb + 1 := by rw [hE]

/-! ## The claims -/

/-- C1: for every input and every non-empty required-header list, if some
required name has no exact match in the parsed header row, the streaming path
and the fast path both return a missing-header error naming the first missing
name in caller-supplied order, and no data row is scanned first: the
streaming result is the same for any row sequence (in particular the empty
one), and the fast-path result is the resolution error, produced before the
chunk partition or any chunk scan is consulted. -/
theorem claim1_missing_header_fail_fast
    (headers : List (List Nat)) (rows : List (List (List Nat)))
    (required : List (List Nat)) (m : List Nat)
    (delim lb : Nat) (data : List Nat) (required' : List (List Nat)) (m' : List Nat)
    (verify : Bool) (limit : Option Nat) (cores : Nat)
    (hstream : required.find? (fun r => decide (r ∉ headers)) = some m)
    (hdata : data ≠ [])
    (hvalid : (headerFieldsOf delim lb data).all validUtf8 = true)
    (hfast : required'.find? (fun r => decide (r ∉ headerFieldsOf delim lb data)) =
      some m') :
    processCsvStream headers rows required = .error (.missingHeader m) ∧
    processCsvStream headers [] required = .error (.missingHeader m) ∧
    fastLocalProcess delim lb required' verify limit cores data =
      .error (.missingHeader m') := by
  have h1 := resolveRequired_err hstream
  have hlen : ¬data.length = 0 := by simpa using hdata
  have h2 := resolveRequiredFast_err hfast
  refine ⟨?_, ?_, ?_⟩
  · simp only [processCsvStream, h1]
  · simp only [processCsvStream, h1]
  · simp only [fastLocalProcess, if_neg hlen, if_neg (not_not_intro hvalid), h2]

/-- C1 witness: header row `h`, required `s` — both paths report the missing
header `s` (streaming regardless of the rows). -/
theorem claim1_witness :
    processCsvStream [[104]] [[[97]]] [[115]] =
      .error (.missingHeader [115]) ∧
    processCsvStream [[104]] [] [[115]] = .error (.missingHeader [115]) ∧
    fastLocalProcess 44 10 [[115]] false none 1 [104, 10, 97, 10] =
      .error (.missingHeader [115]) :=
  claim1_missing_header_fail_fast [[104]] [[[97]]] [[115]] [115]
    44 10 [104, 10, 97, 10] [[115]] [115] false none 1
    (by decide) (by decide) (by decide) (by decide)

/-- C5 counterexample: the lenient-mode missing-required-field error is
`MissingHeader(name)` and carries no row number — the identical error value
is returned whether the failing row is the first or the second, so the error
cannot identify the 1-based row number the claim requires. -/
theorem claim5_counterexample :
    processCsvStream [[97], [98]] [[[120]]] [[98]] =
      .error (.missingHeader [98]) ∧
    processCsvStream [[97], [98]] [[[120], [121]], [[120]]] [[98]] =
      .error (.missingHeader [98]) :=
  ⟨rfl, rfl⟩

/-- C5 (amended): in lenient mode the scan aborts at the first row missing a
required field — the result is already determined by the rows up to and
including the failing one, so no later row is examined and no row is skipped
— with a `MissingHeader` error naming the missing header; the error does not
carry the row number. -/
theorem claim5_amended
    (headers : List (List Nat)) (required : List (List Nat))
    (pairs : List (List Nat × Nat)) (pre : List (List (List Nat)))
    (bad : List (List Nat)) (rest : List (List (List Nat))) (name : List Nat)
    (hres : resolveRequired headers required = .ok pairs)
    (hpre : ∀ r ∈ pre, checkRow pairs r = none)
    (hbad : checkRow pairs bad = some name) :
    processCsvStream headers (pre ++ bad :: rest) required =
      .error (.missingHeader name) ∧
    processCsvStream headers (pre ++ [bad]) required =
      .error (.missingHeader name) := by
  constructor
  · simp only [processCsvStream, hres, scanRows_err hbad hpre 0]
  · have h := @scanRows_err pairs bad [] name hbad pre hpre 0
    simp only [processCsvStream, hres, h]

/-- C5 witness: required `b` at index 1; the second row is the first row
missing it. -/
theorem claim5_witness :
    processCsvStream [[97], [98]] [[[120], [121]], [[120]], [[122], [123]]] [[98]] =
      .error (.missingHeader [98]) ∧
    processCsvStream [[97], [98]] [[[120], [121]], [[120]]] [[98]] =
      .error (.missingHeader [98]) :=
  claim5_amended [[97], [98]] [[98]] [([98], 1)] [[[120], [121]]] [[120]]
    [[[122], [123]]] [98] rfl (by decide) (by decide)

/-- C2 counterexample: the library streaming parser has no strict mode — a
row narrower than the header is scanned without any error (`flexible(true)`)
— and a missing required field surfaces as `MissingHeader(name)` carrying no
row index; the error vocabulary of `CsvIngestError` contains no
`RowWidthMismatch` or `RequiredFieldMissing` kind to return. -/
theorem claim2_counterexample :
    processCsvStream [[97], [98]] [[[120]], [[121]]] [[97]] =
      .ok ⟨2, [[97], [98]]⟩ ∧
    processCsvStream [[97], [98]] [[[120]]] [[98]] =
      .error (.missingHeader [98]) :=
  ⟨rfl, rfl⟩

/-- C2 (amended): strict verification lives in the bench binary's
`verify_and_count`, not in the library streaming parser; it aborts at the
first row whose width differs from the header width, reporting the 1-based
row index, the observed width and the expected width — but as an `anyhow`
message, not as a library error kind: the library's error vocabulary is
exactly `MissingHeader(name)`, `Io(detail)` and `Csv(detail)`. -/
theorem claim2_amended
    (headers : List (List Nat)) (required : List (List Nat)) (limit : Option Nat)
    (pre : List (List (List Nat))) (bad : List (List Nat))
    (rest : List (List (List Nat)))
    (hreq : ∀ r ∈ required, r ∈ headers)
    (hpre : ∀ r ∈ pre, r.length = headers.length)
    (hbad : bad.length ≠ headers.length)
    (hlim : ∀ l, limit = some l → pre.length + 1 ≤ l) :
    verifyAndCount headers (pre ++ bad :: rest) required limit =
      .error (.rowWidthMismatch (pre.length + 1) bad.length headers.length) ∧
    ∀ e : CsvIngestError, (∃ n, e = .missingHeader n) ∨
      (∃ d, e = .io d) ∨ (∃ d, e = .csv d) := by
  constructor
  · obtain ⟨ps, hps, -, hlt⟩ := benchResolve_ok hreq
    have h := @verifyRows_width_err ps headers.length limit bad rest hlt hbad
      pre hpre 0 crc32Init (fun l hl => by have := hlim l hl; omega)
    simp only [verifyAndCount, hps, h, Nat.zero_add]
  · intro e
    cases e with
    | missingHeader n => exact .inl ⟨n, rfl⟩
    | io d => exact .inr (.inl ⟨d, rfl⟩)
    | csv d => exact .inr (.inr ⟨d, rfl⟩)

/-- C2 witness: headers `a,b`; the second row has width 1 instead of 2, and
the strict scan reports row 2, got 1, expected 2. -/
theorem claim2_witness :
    verifyAndCount [[97], [98]] [[[120], [121]], [[120]]] [[97]] none =
      .error (.rowWidthMismatch 2 1 2) :=
  (claim2_amended [[97], [98]] [[97]] none [[[120], [121]]] [[120]] []
    (by decide) (by decide) (by decide) (by intro l hl; cases hl)).1

/-- Shape of the decompression selection: gzip wins whenever its flag is set,
zstd only otherwise. -/
theorem choice_iff (g z : Bool) :
    ((if g then Decompression.gzip else if z then .zstd else .plain) = .gzip ↔
      g = true) ∧
    ((if g then Decompression.gzip else if z then .zstd else .plain) = .zstd ↔
      (g = false ∧ z = true)) ∧
    ((if g then Decompression.gzip else if z then .zstd else .plain) = .plain ↔
      (g = false ∧ z = false)) := by
  cases g <;> cases z <;> simp

/-- C3 counterexample: a content-encoding token `zstd` (the highest-
precedence signal according to the claim) together with a `.gz` name hint
selects gzip, not zstd — there is no level precedence, only the gzip-first
disjunction of all signals. -/
theorem claim3_counterexample :
    buildCsvReaderChoice ⟨bytesOf "", bytesOf "zstd", bytesOf "data.gz"⟩ =
      .gzip ∧
    buildCsvReaderChoice ⟨bytesOf "", bytesOf "zstd", bytesOf "data.gz"⟩ ≠
      .zstd := by
  have h1 : buildCsvReaderChoice ⟨bytesOf "", bytesOf "zstd", bytesOf "data.gz"⟩ =
      .gzip := rfl
  refine ⟨h1, ?_⟩
  rw [h1]
  exact fun hcon => nomatch hcon

set_option maxHeartbeats 1600000 in
/-- C3 (amended): the decompression decision carries no precedence between
signal levels.  Gzip is selected exactly when any gzip signal matches — a
lowercased content-encoding token `gzip`, a lowercased content-type of
`application/gzip` or `application/x-gzip`, or a name hint ending in `.gz` —
regardless of any zstd signal at any level; zstd is selected exactly when no
gzip signal matches and some zstd signal does; otherwise no decompression. -/
theorem claim3_amended (meta : CsvMeta) :
    (buildCsvReaderChoice meta = .gzip ↔
      (ceHasToken (asciiLower meta.contentEncoding) (bytesOf "gzip") = true ∨
        asciiLower meta.contentType = bytesOf "application/gzip" ∨
        asciiLower meta.contentType = bytesOf "application/x-gzip" ∨
        (bytesOf ".gz").isSuffixOf meta.nameHint = true)) ∧
    (buildCsvReaderChoice meta = .zstd ↔
      (¬(ceHasToken (asciiLower meta.contentEncoding) (bytesOf "gzip") = true ∨
          asciiLower meta.contentType = bytesOf "application/gzip" ∨
          asciiLower meta.contentType = bytesOf "application/x-gzip" ∨
          (bytesOf ".gz").isSuffixOf meta.nameHint = true) ∧
        (ceHasToken (asciiLower meta.contentEncoding) (bytesOf "zstd") = true ∨
          asciiLower meta.contentType = bytesOf "application/zstd" ∨
          (bytesOf ".zst").isSuffixOf meta.nameHint = true))) ∧
    (buildCsvReaderChoice meta = .plain ↔
      (¬(ceHasToken (asciiLower meta.contentEncoding) (bytesOf "gzip") = true ∨
          asciiLower meta.contentType = bytesOf "application/gzip" ∨
          asciiLower meta.contentType = bytesOf "application/x-gzip" ∨
          (bytesOf ".gz").isSuffixOf meta.nameHint = true) ∧
        ¬(ceHasToken (asciiLower meta.contentEncoding) (bytesOf "zstd") = true ∨
          asciiLower meta.contentType = bytesOf "application/zstd" ∨
          (bytesOf ".zst").isSuffixOf meta.nameHint = true))) := by
  have hdef : buildCsvReaderChoice meta =
      (if (ceHasToken (asciiLower meta.contentEncoding) (bytesOf "gzip")
            || (asciiLower meta.contentType == bytesOf "application/gzip"
                || asciiLower meta.contentType == bytesOf "application/x-gzip")
            || (bytesOf ".gz").isSuffixOf meta.nameHint)
        then Decompression.gzip
        else if (ceHasToken (asciiLower meta.contentEncoding) (bytesOf "zstd")
            || asciiLower meta.contentType == bytesOf "application/zstd"
            || (bytesOf ".zst").isSuffixOf meta.nameHint)
          then .zstd else .plain) := rfl
  obtain ⟨hA, hB, hC⟩ := choice_iff
    (ceHasToken (asciiLower meta.contentEncoding) (bytesOf "gzip")
      || (asciiLower meta.contentType == bytesOf "application/gzip"
          || asciiLower meta.contentType == bytesOf "application/x-gzip")
      || (bytesOf ".gz").isSuffixOf meta.nameHint)
    (ceHasToken (asciiLower meta.contentEncoding) (bytesOf "zstd")
      || asciiLower meta.contentType == bytesOf "application/zstd"
      || (bytesOf ".zst").isSuffixOf meta.nameHint)
  have hgz : (ceHasToken (asciiLower meta.contentEncoding) (bytesOf "gzip")
        || (asciiLower meta.contentType == bytesOf "application/gzip"
            || asciiLower meta.contentType == bytesOf "application/x-gzip")
        || (bytesOf ".gz").isSuffixOf meta.nameHint) = true ↔
      (ceHasToken (asciiLower meta.contentEncoding) (bytesOf "gzip") = true ∨
        asciiLower meta.contentType = bytesOf "application/gzip" ∨
        asciiLower meta.contentType = bytesOf "application/x-gzip" ∨
        (bytesOf ".gz").isSuffixOf meta.nameHint = true) := by
    simp only [Bool.or_eq_true, beq_iff_eq]
    tauto
  have hzs : (ceHasToken (asciiLower meta.contentEncoding) (bytesOf "zstd")
        || asciiLower meta.contentType == bytesOf "application/zstd"
        || (bytesOf ".zst").isSuffixOf meta.nameHint) = true ↔
      (ceHasToken (asciiLower meta.contentEncoding) (bytesOf "zstd") = true ∨
        asciiLower meta.contentType = bytesOf "application/zstd" ∨
        (bytesOf ".zst").isSuffixOf meta.nameHint = true) := by
    simp only [Bool.or_eq_true, beq_iff_eq]
    tauto
  rw [hdef]
  refine ⟨hA.trans hgz, hB.trans ?_, hC.trans ?_⟩
  · exact and_congr (by rw [Bool.eq_false_iff, ne_eq, hgz]) hzs
  · exact and_congr (by rw [Bool.eq_false_iff, ne_eq, hgz])
      (by rw [Bool.eq_false_iff, ne_eq, hzs])

/-- C3 witness: a pure zstd content-encoding signal with no gzip signal
yields zstd. -/
theorem claim3_witness :
    buildCsvReaderChoice ⟨bytesOf "text/csv", bytesOf "zstd", bytesOf "d"⟩ =
      .zstd :=
  (claim3_amended ⟨bytesOf "text/csv", bytesOf "zstd", bytesOf "d"⟩).2.1.mpr
    (by decide)

/-- C8: for every abstract decoder model, state and input, the transcoder's
`decode` and `decode_eof` never return an error (every control path produces
`Ok`; malformed input is the inner decoder's concern, which substitutes
rather than fails), a `decode` call on an empty input buffer yields no output
chunk, and each call emits at most one chunk (the `Option` result). -/
theorem claim8_transcoder_total {σ : Type} (m : DecoderModel σ) (st : σ)
    (src buf : List Nat) :
    (∃ r, transcoderDecode m st src = .ok r) ∧
    (∃ r, transcoderDecodeEof m st buf = .ok r) ∧
    (src = [] → transcoderDecode m st src = .ok (st, src, none)) := by
  refine ⟨?_, ?_, ?_⟩
  · by_cases h : src.isEmpty
    · exact ⟨(st, src, none), by simp only [transcoderDecode, if_pos h]⟩
    · by_cases h2 : (m.step st src false).2.1 = 0 ∧
          (m.step st src false).2.2.length = 0 ∧ ¬src.isEmpty = true
      · exact ⟨((m.step st src false).1, src, none),
          by simp only [transcoderDecode, if_neg h, if_pos h2]⟩
      · exact ⟨((m.step st src false).1, src.drop (m.step st src false).2.1,
            some (m.step st src false).2.2),
          by simp only [transcoderDecode, if_neg h, if_neg h2]⟩
  · by_cases h : buf.isEmpty
    · exact ⟨(st, buf, none), by simp only [transcoderDecodeEof, if_pos h]⟩
    · by_cases h2 : 0 < (m.step st buf true).2.2.length
      · exact ⟨((m.step st buf true).1, [], some (m.step st buf true).2.2),
          by simp only [transcoderDecodeEof, if_neg h, if_pos h2]⟩
      · exact ⟨((m.step st buf true).1, [], none),
          by simp only [transcoderDecodeEof, if_neg h, if_neg h2]⟩
  · rintro rfl
    simp [transcoderDecode]

/-- C8 witness: the identity pass-through decoder on a one-byte input and an
empty buffer. -/
theorem claim8_witness :
    (∃ r, transcoderDecode ⟨fun s src _ => (s, src.length, src)⟩ () [72] = .ok r) ∧
    (∃ r, transcoderDecodeEof ⟨fun s src _ => (s, src.length, src)⟩ () [] = .ok r) ∧
    ([] = ([] : List Nat) → transcoderDecode ⟨fun s src _ => (s, src.length, src)⟩ () [] =
      .ok ((), [], none)) := by
  have h := claim8_transcoder_total ⟨fun s (src : List Nat) _ => (s, src.length, src)⟩ () [72] []
  have h2 := claim8_transcoder_total ⟨fun s (src : List Nat) _ => (s, src.length, src)⟩ () [] []
  exact ⟨h.1, h.2.1, fun _ => h2.2.2 rfl⟩

/-- C4 counterexample: header `h`, eight rows `a`, two cores, row limit 2.
Each of the two chunks processes the full limit of 2 rows (not its
proportional share of 1), so the total is 4 = cores × limit, double the
limit. -/
theorem claim4_counterexample :
    fastLocalProcess 44 10 [] false (some 2) 2
        [104, 10, 97, 10, 97, 10, 97, 10, 97, 10, 97, 10, 97, 10, 97, 10, 97, 10] =
      .ok ⟨4, [[104]], none⟩ ∧
    (windowsOf (startsOf 10 2
        [104, 10, 97, 10, 97, 10, 97, 10, 97, 10, 97, 10, 97, 10, 97, 10, 97, 10])).map
      (fun p => (chunkScanGo 44 10 [] false (some 2)
        (sliceOf [104, 10, 97, 10, 97, 10, 97, 10, 97, 10, 97, 10, 97, 10, 97, 10, 97, 10] p)
        [] 0 0 crc32Init).1) = [2, 2] :=
  ⟨rfl, rfl⟩

/-- C4 (amended): the row limit `L` is applied per chunk against the full
value `L`, not a proportional share: each chunk stops after locally
processing `min(#its terminated rows, max 1 L)` rows, so with `N` chunks the
total may reach about `N × L` (plus the unterminated-final-line adjustment)
rather than approximating `L`. -/
theorem claim4_amended (delim lb : Nat) (required : List (List Nat))
    (verify : Bool) (l cores : Nat) (data : List Nat)
    (hdata : data ≠ [])
    (hvalid : (headerFieldsOf delim lb data).all validUtf8 = true)
    (hreq : ∀ r ∈ required, r ∈ headerFieldsOf delim lb data) :
    ∃ out, fastLocalProcess delim lb required verify (some l) cores data =
        .ok out ∧
      out.rowCount = ((windowsOf (startsOf lb cores data)).map
          (fun p => min ((sliceOf data p).count lb) (max 1 l))).sum
        + (if bodyStartOf lb data < data.length ∧ data.getLast? ≠ some lb
            then 1 else 0) := by
  obtain ⟨crcv, hrun⟩ := fastLocalProcess_run delim lb required verify (some l)
    cores data hdata hvalid hreq
  refine ⟨_, hrun, ?_⟩
  simp [limitCount]

/-- C4 witness: the concrete two-core, limit-2 scenario of the
counterexample, through the amended formula. -/
theorem claim4_witness :
    ∃ out, fastLocalProcess 44 10 [] false (some 2) 2
        [104, 10, 97, 10, 97, 10, 97, 10, 97, 10, 97, 10, 97, 10, 97, 10, 97, 10] =
        .ok out ∧
      out.rowCount = ((windowsOf (startsOf 10 2
          [104, 10, 97, 10, 97, 10, 97, 10, 97, 10, 97, 10, 97, 10, 97, 10, 97, 10])).map
          (fun p => min ((sliceOf
            [104, 10, 97, 10, 97, 10, 97, 10, 97, 10, 97, 10, 97, 10, 97, 10, 97, 10] p).count 10)
            (max 1 2))).sum
        + (if bodyStartOf 10
              [104, 10, 97, 10, 97, 10, 97, 10, 97, 10, 97, 10, 97, 10, 97, 10, 97, 10] <
              ([104, 10, 97, 10, 97, 10, 97, 10, 97, 10, 97, 10, 97, 10, 97, 10, 97, 10] : List Nat).length ∧
            ([104, 10, 97, 10, 97, 10, 97, 10, 97, 10, 97, 10, 97, 10, 97, 10, 97, 10] : List Nat).getLast? ≠ some 10
            then 1 else 0) :=
  claim4_amended 44 10 [] false 2 2
    [104, 10, 97, 10, 97, 10, 97, 10, 97, 10, 97, 10, 97, 10, 97, 10, 97, 10]
    (by decide) (by decide) (by decide)

/-- C6: for every non-empty input, the chunk boundaries start at
`body_start`, end at end-of-file, are ascending (so the chunks are
contiguous and non-overlapping), every boundary strictly inside the body
range sits immediately after a line-break byte (no chunk starts or ends
mid-row), and the chunk slices concatenate to exactly the post-header byte
range (the last chunk runs to end-of-file). -/
theorem claim6_chunk_partition (lb cores : Nat) (data : List Nat)
    (hdata : data ≠ []) (hcores : 1 ≤ cores) :
    (startsOf lb cores data).head? = some (bodyStartOf lb data) ∧
    (startsOf lb cores data).getLast? = some data.length ∧
    List.Chain' (· ≤ ·) (startsOf lb cores data) ∧
    (∀ x ∈ startsOf lb cores data, bodyStartOf lb data < x → x < data.length →
      0 < x ∧ data[x - 1]? = some lb) ∧
    ((windowsOf (startsOf lb cores data)).map (sliceOf data)).flatten =
      data.drop (bodyStartOf lb data) := by
  obtain ⟨h1, h2, h3, h4⟩ := startsOf_spec lb cores data
  refine ⟨h1, h2, h3, ?_, ?_⟩
  · intro x hx hgt hlt
    obtain ⟨-, hd⟩ := h4 x hx
    rcases hd with h | h | h
    · omega
    · omega
    · exact h
  · rcases hs : startsOf lb cores data with _ | ⟨b, ss⟩
    · rw [hs] at h1
      exact absurd h1 (by simp)
    · rw [hs] at h1 h2 h3
      simp only [List.head?_cons, Option.some.injEq] at h1
      rw [windows_flatten data ss b h3]
      have hlast : ss.getLastD b = data.length := by
        have h := (List.getLastD_cons 0 b ss).symm
        rw [show (b :: ss).getLastD 0 = data.length from by
          rw [List.getLastD_eq_getLast?, h2]; rfl] at h
        exact h
      rw [hlast, ← h1]
      refine List.take_of_length_le ?_
      rw [List.length_drop]

/-- C6 witness: the concrete two-core file of the C4 scenario. -/
theorem claim6_witness :
    (startsOf 10 2 [104, 10, 97, 10, 97, 10]).head? =
      some (bodyStartOf 10 [104, 10, 97, 10, 97, 10]) ∧
    (startsOf 10 2 [104, 10, 97, 10, 97, 10]).getLast? = some 6 ∧
    List.Chain' (· ≤ ·) (startsOf 10 2 [104, 10, 97, 10, 97, 10]) ∧
    (∀ x ∈ startsOf 10 2 [104, 10, 97, 10, 97, 10],
      bodyStartOf 10 [104, 10, 97, 10, 97, 10] < x → x < 6 →
      0 < x ∧ ([104, 10, 97, 10, 97, 10] : List Nat)[x - 1]? = some 10) ∧
    ((windowsOf (startsOf 10 2 [104, 10, 97, 10, 97, 10])).map
      (sliceOf [104, 10, 97, 10, 97, 10])).flatten =
        ([104, 10, 97, 10, 97, 10] : List Nat).drop
          (bodyStartOf 10 [104, 10, 97, 10, 97, 10]) :=
  claim6_chunk_partition 10 2 [104, 10, 97, 10, 97, 10] (by decide) (by decide)

/-- C9: in the fast path without a row limit, the returned row count is the
sum of the per-chunk counts of line-break-terminated rows, plus exactly one
when the (non-empty) body's final byte is not a line break, and with no
extra row when it is. -/
theorem claim9_unterminated_last_line (delim lb : Nat)
    (required : List (List Nat)) (verify : Bool) (cores : Nat) (data : List Nat)
    (hdata : data ≠ [])
    (hvalid : (headerFieldsOf delim lb data).all validUtf8 = true)
    (hreq : ∀ r ∈ required, r ∈ headerFieldsOf delim lb data)
    (hbody : bodyStartOf lb data < data.length) :
    ∃ out, fastLocalProcess delim lb required verify none cores data = .ok out ∧
      (data.getLast? ≠ some lb →
        out.rowCount = ((windowsOf (startsOf lb cores data)).map
          (fun p => (sliceOf data p).count lb)).sum + 1) ∧
      (data.getLast? = some lb →
        out.rowCount = ((windowsOf (startsOf lb cores data)).map
          (fun p => (sliceOf data p).count lb)).sum) := by
  obtain ⟨crcv, hrun⟩ := fastLocalProcess_run delim lb required verify none
    cores data hdata hvalid hreq
  refine ⟨_, hrun, ?_, ?_⟩
  · intro hterm
    rw [if_pos ⟨hbody, hterm⟩]
    simp [limitCount]
  · intro hterm
    rw [if_neg (by simp [hterm])]
    simp [limitCount]

/-- C9 witness: an unterminated final line (`h\na`) counts one extra row; a
terminated file (`h\na\n`) does not. -/
theorem claim9_witness :
    (∃ out, fastLocalProcess 44 10 [] false none 1 [104, 10, 97] = .ok out ∧
      (([104, 10, 97] : List Nat).getLast? ≠ some 10 →
        out.rowCount = ((windowsOf (startsOf 10 1 [104, 10, 97])).map
          (fun p => (sliceOf [104, 10, 97] p).count 10)).sum + 1) ∧
      (([104, 10, 97] : List Nat).getLast? = some 10 →
        out.rowCount = ((windowsOf (startsOf 10 1 [104, 10, 97])).map
          (fun p => (sliceOf [104, 10, 97] p).count 10)).sum)) :=
  claim9_unterminated_last_line 44 10 [] false 1 [104, 10, 97]
    (by decide) (by decide) (by decide) (by decide)

/-- C10: with `limit_rows = Some(0)` rows are still counted, because the
limit is tested only after a row has been processed: every chunk scan yields
`min(#terminated rows, 1)`, so each chunk holding at least one terminated row
contributes one, and the total row count is at least 1 whenever the body
holds a line break. -/
theorem claim10_limit_zero (delim lb : Nat) (required : List (List Nat))
    (verify : Bool) (cores : Nat) (data : List Nat)
    (hdata : data ≠ [])
    (hvalid : (headerFieldsOf delim lb data).all validUtf8 = true)
    (hreq : ∀ r ∈ required, r ∈ headerFieldsOf delim lb data)
    (hbody : 1 ≤ (data.drop (bodyStartOf lb data)).count lb) :
    (∀ (req slice : List Nat) (crc : Nat),
      (chunkScanGo delim lb req verify (some 0) slice [] 0 0 crc).1 =
        min (slice.count lb) 1) ∧
    ∃ out, fastLocalProcess delim lb required verify (some 0) cores data =
        .ok out ∧ 1 ≤ out.rowCount := by
  constructor
  · intro req slice crc
    rw [chunkScanGo_count_some]
    simp
  · obtain ⟨crcv, hrun⟩ := fastLocalProcess_run delim lb required verify
      (some 0) cores data hdata hvalid hreq
    refine ⟨_, hrun, ?_⟩
    have hsum := chunk_count_sum lb cores data
    rw [← hsum] at hbody
    have hex : ∃ p ∈ windowsOf (startsOf lb cores data),
        1 ≤ (sliceOf data p).count lb := by
      by_contra hcon
      push_neg at hcon
      have hz : ((windowsOf (startsOf lb cores data)).map
          (fun p => (sliceOf data p).count lb)).sum = 0 := by
        refine List.sum_eq_zero ?_
        intro x hx
        obtain ⟨p, hp, rfl⟩ := List.mem_map.mp hx
        have := hcon p hp
        omega
      omega
    obtain ⟨p, hp, hp1⟩ := hex
    have hone : limitCount (some 0) ((sliceOf data p).count lb) = 1 := by
      simp only [limitCount]
      omega
    have hmem : (1 : Nat) ∈ (windowsOf (startsOf lb cores data)).map
        (fun p => limitCount (some 0) ((sliceOf data p).count lb)) := by
      rw [← hone]
      exact List.mem_map_of_mem _ hp
    have hle := List.single_le_sum (fun x _ => Nat.zero_le x) 1 hmem
    dsimp only
    omega

/-- C10 witness: limit 0 on a one-row file still counts the row. -/
theorem claim10_witness :
    (∀ (req slice : List Nat) (crc : Nat),
      (chunkScanGo 44 10 req false (some 0) slice [] 0 0 crc).1 =
        min (slice.count 10) 1) ∧
    ∃ out, fastLocalProcess 44 10 [] false (some 0) 1 [104, 10, 97, 10] =
        .ok out ∧ 1 ≤ out.rowCount :=
  claim10_limit_zero 44 10 [] false 1 [104, 10, 97, 10]
    (by decide) (by decide) (by decide) (by decide)

theorem headD_dropLast {α : Type} (d : α) : ∀ {l : List α}, 2 ≤ l.length →
    l.dropLast.headD d = l.headD d := by
  intro l h
  match l, h with
  | a :: b :: t, _ => rfl

/-- C7: on an uncompressed file of the generated well-formed shape
(newline-terminated non-empty comma rows of uniform width, no quotes), the
streaming path — fed the records the csv reader produces for such a file —
and the fast path return the same row count and the same header sequence. -/
theorem claim7_cross_path_equivalence (delim lb cores : Nat)
    (required : List (List Nat)) (verify : Bool) (data : List Nat)
    (hdata : data ≠ [])
    (hterm : data.getLast? = some lb)
    (hlines : ∀ seg ∈ (splitByte lb data).dropLast, seg ≠ [])
    (hvalid : (headerFieldsOf delim lb data).all validUtf8 = true)
    (hwidth : ∀ row ∈ (streamRecordsOf delim lb data).tail,
      row.length = (headerFieldsOf delim lb data).length)
    (hreq : ∀ r ∈ required, r ∈ headerFieldsOf delim lb data)
    (hcores : 1 ≤ cores) :
    ∃ s f, processCsvStream ((streamRecordsOf delim lb data).headD [])
        ((streamRecordsOf delim lb data).tail) required = .ok s ∧
      fastLocalProcess delim lb required verify none cores data = .ok f ∧
      f.rowCount = s.rowCount ∧ f.headers = s.headers := by
  have hlb : lb ∈ data := List.mem_of_mem_getLast? hterm
  obtain ⟨hElt, hcnt⟩ := count_body lb data hlb
  have hcntpos : 1 ≤ data.count lb := by omega
  have hlen2 : 2 ≤ (splitByte lb data).length := by
    rw [splitByte_length]
    omega
  have hhead : (streamRecordsOf delim lb data).headD [] =
      headerFieldsOf delim lb data := by
    rw [streamRecordsOf]
    rcases hdl : (splitByte lb data).dropLast with _ | ⟨l0, ls⟩
    · exfalso
      have hq := congrArg List.length hdl
      rw [List.length_dropLast, splitByte_length] at hq
      simp at hq
      omega
    · simp only [List.map_cons, List.headD_cons]
      have h1 : (splitByte lb data).dropLast.headD [] = l0 := by
        rw [hdl]
        rfl
      have h2 := headD_dropLast ([] : List Nat) hlen2
      have h3 := splitByte_headD lb data
      have hl0 : l0 = data.take (headerEndOf lb data) := by
        rw [← h1, h2, h3]
        rfl
      rw [hl0]
      rfl
  have hrowslen : (streamRecordsOf delim lb data).tail.length =
      data.count lb - 1 := by
    rw [streamRecordsOf, List.length_tail, List.length_map,
      List.length_dropLast, splitByte_length]
    omega
  obtain ⟨ps, hres, hmapn, hlt⟩ := resolveRequired_ok
    (show ∀ r ∈ required, r ∈ (streamRecordsOf delim lb data).headD [] from by
      rw [hhead]; exact hreq)
  have hall : ∀ row ∈ (streamRecordsOf delim lb data).tail,
      checkRow ps row = none := by
    intro row hrow
    refine checkRow_none ?_
    intro p hp
    have hplt := hlt p hp
    rw [hhead] at hplt
    rw [hwidth row hrow]
    exact hplt
  have hstream : processCsvStream ((streamRecordsOf delim lb data).headD [])
      ((streamRecordsOf delim lb data).tail) required =
      .ok ⟨(streamRecordsOf delim lb data).tail.length,
        (streamRecordsOf delim lb data).headD []⟩ := by
    simp only [processCsvStream, hres, scanRows_ok hall 0, Nat.zero_add]
  obtain ⟨crcv, hrun⟩ := fastLocalProcess_run delim lb required verify none
    cores data hdata hvalid hreq
  have hbonus : (if bodyStartOf lb data < data.length ∧ data.getLast? ≠ some lb
      then 1 else 0) = 0 := by
    rw [if_neg]
    simp [hterm]
  have hsum0 : ((windowsOf (startsOf lb cores data)).map
      (fun p => limitCount none ((sliceOf data p).count lb))).sum =
      (data.drop (bodyStartOf lb data)).count lb := by
    have hmm : (windowsOf (startsOf lb cores data)).map
        (fun p => limitCount none ((sliceOf data p).count lb)) =
        (windowsOf (startsOf lb cores data)).map
          (fun p => (sliceOf data p).count lb) := by
      simp [limitCount]
    rw [hmm, chunk_count_sum]
  have hbodycnt : (data.drop (bodyStartOf lb data)).count lb =
      data.count lb - 1 := by
    have hbs : bodyStartOf lb data = headerEndOf lb data + 1 := by
      rw [bodyStartOf]
      omega
    rw [hbs]
    omega
  refine ⟨_, _, hstream, hrun, ?_, ?_⟩
  · dsimp only
    rw [hsum0, hbonus, hbodycnt, hrowslen, Nat.add_zero]
  · dsimp only
    exact hhead.symm

/-- C7 witness: the file `a,b\nx,y\n` on one core: both paths report one data
row and the header `a,b`. -/
theorem claim7_witness :
    ∃ s f, processCsvStream
        ((streamRecordsOf 44 10 [97, 44, 98, 10, 120, 44, 121, 10]).headD [])
        ((streamRecordsOf 44 10 [97, 44, 98, 10, 120, 44, 121, 10]).tail)
        [[97]] = .ok s ∧
      fastLocalProcess 44 10 [[97]] false none 1
        [97, 44, 98, 10, 120, 44, 121, 10] = .ok f ∧
      f.rowCount = s.rowCount ∧ f.headers = s.headers :=
  claim7_cross_path_equivalence 44 10 1 [[97]] false
    [97, 44, 98, 10, 120, 44, 121, 10]
    (by decide) (by decide) (by decide) (by decide) (by decide) (by decide)
    (by decide)

end CsvIngest
